import Mathlib

/-!
Formal model of the URL scanner of mre/linkify (src/url.rs).

Text is modelled as a list of Unicode scalar values; byte offsets are
computed from the UTF-8 size of each scalar value, so that every offset
produced here is byte-exact with respect to the Rust implementation.
The three functions `scan`, `find_start` and `find_end` mirror
`UrlScanner::scan`, `UrlScanner::find_start` and `UrlScanner::find_end`.
-/

namespace Linkify

/-- Byte length of the UTF-8 encoding of a list of scalar values
(mirrors `str::len`). -/
def utf8Len : List Char → Nat
  | [] => 0
  | c :: cs => c.utf8Size + utf8Len cs

/-- Pairs of byte offset and scalar value starting at base offset `k`
(mirrors `str::char_indices`, generalized by a base offset). -/
def charIndicesFrom : Nat → List Char → List (Nat × Char)
  | _, [] => []
  | k, c :: cs => (k, c) :: charIndicesFrom (k + c.utf8Size) cs

/-- The char_indices of a full string: offsets start at 0. -/
def charIndices (s : List Char) : List (Nat × Char) := charIndicesFrom 0 s

/-- Split a string at byte offset `n`. Returns `some` exactly when `n` is a
scalar-value boundary not exceeding the byte length (the defined cases of
Rust byte slicing `&s[..n]` / `&s[n..]`). -/
def splitAtByte : List Char → Nat → Option (List Char × List Char)
  | cs, 0 => some ([], cs)
  | [], _ => none
  | c :: cs, n =>
    if c.utf8Size ≤ n then
      (splitAtByte cs (n - c.utf8Size)).map (fun pq => (c :: pq.1, pq.2))
    else none

/-- Offset `n` is a UTF-8 scalar-value boundary of `s` (including the
length `utf8Len s` itself). -/
def isBoundary (s : List Char) (n : Nat) : Prop :=
  ∃ p q, s = p ++ q ∧ utf8Len p = n

/-- Whether the second list starts with the first (mirrors
`str::starts_with` for an ASCII pattern). -/
def startsWithChars : List Char → List Char → Bool
  | [], _ => true
  | _ :: _, [] => false
  | p :: ps, c :: cs => p == c && startsWithChars ps cs

/-- ASCII letter, the ranges of the Rust arm `'a'..='z' | 'A'..='Z'`. -/
def isAsciiAlpha (c : Char) : Bool :=
  (0x41 ≤ c.toNat && c.toNat ≤ 0x5A) || (0x61 ≤ c.toNat && c.toNat ≤ 0x7A)

/-- ASCII digit, the range of the Rust arm `'0'..='9'`. -/
def isAsciiDigit (c : Char) : Bool :=
  0x30 ≤ c.toNat && c.toNat ≤ 0x39

/-- The reverse loop of `UrlScanner::find_start`: scans the given
(already reversed) `char_indices`, carrying the `first` and `digit`
candidates; stops at the first character that is neither ASCII
alphanumeric nor one of `+` `-` `.`. -/
def findStartLoop :
    List (Nat × Char) → Option Nat → Option Nat → Option Nat × Option Nat
  | [], first, digit => (first, digit)
  | (i, c) :: rest, first, digit =>
    if isAsciiAlpha c then findStartLoop rest (some i) digit
    else if isAsciiDigit c then findStartLoop rest first (some i)
    else if c = '+' ∨ c = '-' ∨ c = '.' then findStartLoop rest first digit
    else (first, digit)

/-- The digit-adjacency gate at the tail of `UrlScanner::find_start`:
given the `first` and `digit` candidates of the reverse scan, return
`none` when a letter candidate exists, a digit candidate exists, and the
digit sits on the byte immediately before the letter; otherwise return
the letter candidate (which may itself be absent). -/
def schemeGate : Option Nat × Option Nat → Option Nat
  | (some f, some d) => if 0 < f ∧ f - 1 = d then none else some f
  | (some f, none) => some f
  | (none, _) => none

/-- The function `UrlScanner::find_start`: the byte offset of the scheme start in the
slice before the trigger, `some 0` for an empty slice with the slash
trigger (protocol-relative URL), `none` otherwise on failure. -/
def find_start (trigger : Char) (s : List Char) : Option Nat :=
  if s = [] ∧ trigger = '/' then some 0
  else schemeGate (findStartLoop (charIndices s).reverse none none)

/-- The characters on which the forward scan stops at once: control
characters 0x00-0x1F and 0x7F-0x9F, space (0x20), double quote (0x22),
less-than (0x3C), greater-than (0x3E) and the backtick (0x60); the first
arm of the match in `UrlScanner::find_end`. -/
def isStopChar (c : Char) : Bool :=
  c.toNat ≤ 0x1F || c.toNat = 0x20 || c.toNat = 0x22 || c.toNat = 0x3C ||
  c.toNat = 0x3E || c.toNat = 0x60 || (0x7F ≤ c.toNat && c.toNat ≤ 0x9F)

/-- The arms of the character match in `UrlScanner::find_end`, as a
closed classification, in source order. -/
inductive EndClass where
  | stop
  | punct
  | slash
  | roundOpen
  | roundClose
  | squareOpen
  | squareClose
  | curlyOpen
  | curlyClose
  | quote
  | other
deriving DecidableEq

/-- Classify one scalar value by the arms of the match in
`UrlScanner::find_end`: stop characters, the six punctuation characters
`?` `!` `.` `,` `:` `;`, the slash, the six brackets, the single quote
(0x27), and everything else. -/
def classifyEnd (c : Char) : EndClass :=
  if isStopChar c then .stop
  else if c = '?' ∨ c = '!' ∨ c = '.' ∨ c = ',' ∨ c = ':' ∨ c = ';' then
    .punct
  else if c = '/' then .slash
  else if c = '(' then .roundOpen
  else if c = ')' then .roundClose
  else if c = '[' then .squareOpen
  else if c = ']' then .squareClose
  else if c = '{' then .curlyOpen
  else if c = '}' then .curlyClose
  else if c.toNat = 0x27 then .quote
  else .other

/-- The forward loop of `UrlScanner::find_end` over `char_indices`,
carrying the three bracket counters, the single-quote parity flag, the
previous character's `can_be_last` and the best recorded end so far. -/
def findEndLoop :
    List (Nat × Char) → Int → Int → Int → Bool → Bool → Option Nat → Option Nat
  | [], _, _, _, _, _, e => e
  | (i, c) :: rest, round, square, curly, singleQuote, prev, e =>
    match classifyEnd c with
    | .stop => e
    | .punct => findEndLoop rest round square curly singleQuote false e
    | .slash =>
      findEndLoop rest round square curly singleQuote prev
        (if prev then some (i + c.utf8Size) else e)
    | .roundOpen => findEndLoop rest (round + 1) square curly singleQuote false e
    | .roundClose =>
      if round - 1 < 0 then e
      else findEndLoop rest (round - 1) square curly singleQuote true
        (some (i + c.utf8Size))
    | .squareOpen => findEndLoop rest round (square + 1) curly singleQuote false e
    | .squareClose =>
      if square - 1 < 0 then e
      else findEndLoop rest round (square - 1) curly singleQuote true
        (some (i + c.utf8Size))
    | .curlyOpen => findEndLoop rest round square (curly + 1) singleQuote false e
    | .curlyClose =>
      if curly - 1 < 0 then e
      else findEndLoop rest round square (curly - 1) singleQuote true
        (some (i + c.utf8Size))
    | .quote =>
      findEndLoop rest round square curly (!singleQuote) singleQuote
        (if singleQuote then some (i + c.utf8Size) else e)
    | .other =>
      findEndLoop rest round square curly singleQuote true
        (some (i + c.utf8Size))

/-- The function `UrlScanner::find_end`: the byte offset (relative to the slice after
the protocol separator) one past the last character that may legally end
the URL. -/
def find_end (s : List Char) : Option Nat :=
  findEndLoop (charIndices s) 0 0 0 false true none

/-- The protocol separator literal and its byte length for a trigger:
`"//"` with 2 for `'/'`, `"://"` with 3 for anything else (the `':'`
variant); mirrors the match at the top of `UrlScanner::scan`. -/
def protoFor (trigger : Char) : List Char × Nat :=
  if trigger = '/' then (['/', '/'], 2) else ([':', '/', '/'], 3)

/-- The function `UrlScanner::scan`: given the text and the byte offset of the trigger
character, the detected URL span as a half-open byte range, or `none`. -/
def scan (trigger : Char) (s : List Char) (triggerIndex : Nat) :
    Option (Nat × Nat) :=
  let po := protoFor trigger
  let afterSlashSlash := triggerIndex + po.2
  match splitAtByte s triggerIndex with
  | none => none
  | some pr =>
    if afterSlashSlash < utf8Len s ∧ startsWithChars po.1 pr.2 = true then
      match splitAtByte pr.2 po.2 with
      | none => none
      | some pq =>
        match find_start trigger pr.1 with
        | none => none
        | some st =>
          match find_end pq.2 with
          | none => none
          | some e => some (st, afterSlashSlash + e)
    else none

/-- Number of single-quote characters of `s` (offsets based at `k`) whose
byte offset is smaller than `v`. -/
def qLtFrom : Nat → List Char → Nat → Nat
  | _, [], _ => 0
  | k, c :: cs, v =>
    (if k < v ∧ c.toNat = 0x27 then 1 else 0) + qLtFrom (k + c.utf8Size) cs v

/-- Number of single-quote characters of `s` strictly before byte
offset `v`. -/
def quotesBefore (s : List Char) (v : Nat) : Nat := qLtFrom 0 s v

/-- The text "1abc://x" as scalar values. -/
def exOneAbc : List Char := ['1', 'a', 'b', 'c', ':', '/', '/', 'x']

/-- The text ".abc://x" as scalar values. -/
def exDotAbc : List Char := ['.', 'a', 'b', 'c', ':', '/', '/', 'x']

/-- The text "s://x" as scalar values. -/
def exSX : List Char := ['s', ':', '/', '/', 'x']

/-- The text "see http://example.com/a)" as scalar values. -/
def exParen : List Char :=
  ['s', 'e', 'e', ' ', 'h', 't', 't', 'p', ':', '/', '/', 'e', 'x', 'a',
   'm', 'p', 'l', 'e', '.', 'c', 'o', 'm', '/', 'a', ')']

/-- The text "//example.org/path" as scalar values. -/
def exPR : List Char :=
  ['/', '/', 'e', 'x', 'a', 'm', 'p', 'l', 'e', '.', 'o', 'r', 'g', '/',
   'p', 'a', 't', 'h']

/-- The text consisting of one letter followed by two single quotes. -/
def exQuotes : List Char := ['a', '\'', '\'']

/-- The text "http://example.com a" as scalar values. -/
def exHttpSpace : List Char :=
  ['h', 't', 't', 'p', ':', '/', '/', 'e', 'x', 'a', 'm', 'p', 'l', 'e',
   '.', 'c', 'o', 'm', ' ', 'a']

/-! ### Basic facts about byte lengths, boundaries and char_indices -/

theorem utf8Size_pos (c : Char) : 0 < c.utf8Size := by
  have := Char.utf8Size_pos c
  omega

theorem utf8Len_append (p q : List Char) :
    utf8Len (p ++ q) = utf8Len p + utf8Len q := by
  induction p with
  | nil => simp [utf8Len]
  | cons c cs ih => simp [utf8Len, ih]; omega

theorem splitAtByte_spec :
    ∀ (cs : List Char) (n : Nat) (p q : List Char),
      splitAtByte cs n = some (p, q) → cs = p ++ q ∧ utf8Len p = n := by
  intro cs
  induction cs with
  | nil =>
    intro n p q h
    cases n with
    | zero =>
      simp [splitAtByte] at h
      simp [h.1, h.2, utf8Len]
    | succ m => simp [splitAtByte] at h
  | cons c cs ih =>
    intro n p q h
    cases n with
    | zero =>
      simp [splitAtByte] at h
      rcases h with ⟨hp, hq⟩
      subst hp
      subst hq
      simp [utf8Len]
    | succ m =>
      simp only [splitAtByte] at h
      split at h
      · rcases Option.map_eq_some'.mp h with ⟨⟨p1, q1⟩, hsp, heq⟩
        rcases ih _ _ _ hsp with ⟨hcs, hlen⟩
        injection heq with h1 h2
        subst h1
        constructor
        · rw [← h2, hcs]; rfl
        · simp [utf8Len, hlen]
          omega
      · exact absurd h (by simp)

theorem mem_charIndicesFrom_bounds :
    ∀ (cs : List Char) (k i : Nat) (c : Char),
      (i, c) ∈ charIndicesFrom k cs →
      k ≤ i ∧ i + c.utf8Size ≤ k + utf8Len cs := by
  intro cs
  induction cs with
  | nil => intro k i c h; simp [charIndicesFrom] at h
  | cons d ds ih =>
    intro k i c h
    rw [charIndicesFrom] at h
    rcases List.mem_cons.mp h with h | h
    · injection h with h1 h2
      subst h1; subst h2
      simp [utf8Len]
      try omega
    · rcases ih _ _ _ h with ⟨h1, h2⟩
      simp [utf8Len]
      omega

theorem charIndicesFrom_append (xs ys : List Char) :
    ∀ k, charIndicesFrom k (xs ++ ys) =
      charIndicesFrom k xs ++ charIndicesFrom (k + utf8Len xs) ys := by
  induction xs with
  | nil => intro k; simp [charIndicesFrom, utf8Len]
  | cons c cs ih =>
    intro k
    simp [charIndicesFrom, utf8Len, ih]
    have : k + c.utf8Size + utf8Len cs = k + (c.utf8Size + utf8Len cs) := by omega
    rw [this]

theorem mem_charIndicesFrom_split :
    ∀ (cs : List Char) (k i : Nat) (c : Char),
      (i, c) ∈ charIndicesFrom k cs →
      ∃ p q, cs = p ++ c :: q ∧ k + utf8Len p = i := by
  intro cs
  induction cs with
  | nil => intro k i c h; simp [charIndicesFrom] at h
  | cons d ds ih =>
    intro k i c h
    rw [charIndicesFrom] at h
    rcases List.mem_cons.mp h with h | h
    · injection h with h1 h2
      subst h1; subst h2
      exact ⟨[], ds, rfl, by simp [utf8Len]⟩
    · rcases ih _ _ _ h with ⟨p, q, hpq, hlen⟩
      refine ⟨d :: p, q, by simp [hpq], ?_⟩
      simp [utf8Len] at hlen ⊢
      omega

theorem mem_charIndices_boundary (s : List Char) (i : Nat) (c : Char)
    (h : (i, c) ∈ charIndices s) :
    isBoundary s i ∧ isBoundary s (i + c.utf8Size) := by
  rcases mem_charIndicesFrom_split s 0 i c h with ⟨p, q, hpq, hlen⟩
  constructor
  · exact ⟨p, c :: q, hpq, by omega⟩
  · refine ⟨p ++ [c], q, by simp [hpq], ?_⟩
    rw [utf8Len_append]
    simp [utf8Len]
    omega

/-! ### Provenance of the candidates returned by the two loops -/

theorem findStartLoop_fst :
    ∀ (l : List (Nat × Char)) (f d : Option Nat) (v : Nat),
      (findStartLoop l f d).1 = some v →
      f = some v ∨ ∃ c, (v, c) ∈ l ∧ isAsciiAlpha c = true := by
  intro l
  induction l with
  | nil => intro f d v h; exact Or.inl h
  | cons hd tl ih =>
    obtain ⟨i, c⟩ := hd
    intro f d v h
    rw [findStartLoop] at h
    split at h
    · rename_i ha
      rcases ih _ _ _ h with he | ⟨c2, hm, ha2⟩
      · refine Or.inr ⟨c, ?_, ha⟩
        rw [← Option.some.inj he]
        exact List.mem_cons_self _ _
      · exact Or.inr ⟨c2, List.mem_cons_of_mem _ hm, ha2⟩
    · split at h
      · rcases ih _ _ _ h with he | ⟨c2, hm, ha2⟩
        · exact Or.inl he
        · exact Or.inr ⟨c2, List.mem_cons_of_mem _ hm, ha2⟩
      · split at h
        · rcases ih _ _ _ h with he | ⟨c2, hm, ha2⟩
          · exact Or.inl he
          · exact Or.inr ⟨c2, List.mem_cons_of_mem _ hm, ha2⟩
        · exact Or.inl h

theorem schemeGate_fst (fd : Option Nat × Option Nat) (v : Nat)
    (h : schemeGate fd = some v) : fd.1 = some v := by
  obtain ⟨f, d⟩ := fd
  rcases f with _ | f2
  · rcases d with _ | d2 <;> simp [schemeGate] at h
  · rcases d with _ | d2
    · exact h
    · by_cases hc : 0 < f2 ∧ f2 - 1 = d2
      · rw [schemeGate, if_pos hc] at h
        exact absurd h (by simp)
      · rw [schemeGate, if_neg hc] at h
        exact h

theorem find_start_mem (trigger : Char) (s : List Char) (v : Nat)
    (hs : s ≠ []) (h : find_start trigger s = some v) :
    ∃ c, (v, c) ∈ charIndices s ∧ isAsciiAlpha c = true := by
  rw [find_start, if_neg (by intro hc; exact hs hc.1)] at h
  rcases findStartLoop_fst _ _ _ _ (schemeGate_fst _ _ h) with he | ⟨c, hm, ha⟩
  · exact absurd he (by simp)
  · exact ⟨c, List.mem_reverse.mp hm, ha⟩

theorem find_start_nil (trigger : Char) (v : Nat)
    (h : find_start trigger [] = some v) : v = 0 := by
  rw [find_start] at h
  by_cases ht : trigger = '/'
  · rw [if_pos ⟨rfl, ht⟩] at h
    exact (Option.some.inj h).symm
  · rw [if_neg (by intro hc; exact ht hc.2)] at h
    simp [charIndices, charIndicesFrom, findStartLoop, schemeGate] at h

theorem findEndLoop_mem :
    ∀ (l : List (Nat × Char)) (r sq cu : Int) (qf pr : Bool)
      (e : Option Nat) (v : Nat),
      findEndLoop l r sq cu qf pr e = some v →
      e = some v ∨ ∃ i c, (i, c) ∈ l ∧ v = i + c.utf8Size := by
  intro l
  induction l with
  | nil => intro r sq cu qf pr e v h; exact Or.inl h
  | cons hd tl ih =>
    obtain ⟨i, c⟩ := hd
    intro r sq cu qf pr e v h
    rw [findEndLoop] at h
    rcases hcl : classifyEnd c <;> simp only [hcl] at h <;>
      repeat' split at h
    all_goals first
      | exact Or.inl h
      | exact (ih _ _ _ _ _ _ _ h).elim (fun he => Or.inl he)
          (fun hw => Or.inr (hw.imp fun j hj => hj.imp fun d hd =>
            ⟨List.mem_cons_of_mem _ hd.1, hd.2⟩))
      | exact (ih _ _ _ _ _ _ _ h).elim
          (fun he => Or.inr ⟨i, c, List.mem_cons_self _ _,
            (Option.some.inj he).symm⟩)
          (fun hw => Or.inr (hw.imp fun j hj => hj.imp fun d hd =>
            ⟨List.mem_cons_of_mem _ hd.1, hd.2⟩))

theorem find_end_mem (s : List Char) (v : Nat)
    (h : find_end s = some v) :
    ∃ i c, (i, c) ∈ charIndices s ∧ v = i + c.utf8Size := by
  rcases findEndLoop_mem _ _ _ _ _ _ _ _ h with he | hw
  · exact absurd he (by simp)
  · exact hw

theorem find_end_bounds (s : List Char) (v : Nat)
    (h : find_end s = some v) :
    1 ≤ v ∧ v ≤ utf8Len s ∧ isBoundary s v := by
  rcases find_end_mem s v h with ⟨i, c, hm, hv⟩
  rcases mem_charIndicesFrom_bounds s 0 i c hm with ⟨h1, h2⟩
  have hc := utf8Size_pos c
  refine ⟨by omega, by omega, ?_⟩
  have := (mem_charIndices_boundary s i c hm).2
  rw [hv]
  exact this

/-! ### Classification helpers -/

theorem isStopChar_of_classifyEnd (c : Char)
    (h : classifyEnd c ≠ EndClass.stop) : isStopChar c = false := by
  by_cases hs : isStopChar c = true
  · exact absurd (by rw [classifyEnd, if_pos hs]) h
  · simpa using hs

theorem char_eq_quote_of_toNat (c : Char) (h : c.toNat = 0x27) :
    c = '\'' := by
  apply Char.ext
  apply UInt32.ext
  have hq : ('\'' : Char).toNat = 0x27 := by decide
  simp only [Char.toNat] at h hq
  rw [h, hq]

theorem toNat_ne_quote (c : Char) (h : classifyEnd c ≠ EndClass.quote) :
    c.toNat ≠ 0x27 := by
  intro hq
  have hc := char_eq_quote_of_toNat c hq
  subst hc
  exact h (by decide)

theorem classifyEnd_quote_toNat (c : Char)
    (h : classifyEnd c = EndClass.quote) : c.toNat = 0x27 := by
  by_cases h1 : isStopChar c = true
  · rw [classifyEnd, if_pos h1] at h
    exact absurd h (by decide)
  · by_cases h2 : c = '?' ∨ c = '!' ∨ c = '.' ∨ c = ',' ∨ c = ':' ∨ c = ';'
    · rw [classifyEnd, if_neg h1, if_pos h2] at h
      exact absurd h (by decide)
    · by_cases h3 : c = '/'
      · rw [classifyEnd, if_neg h1, if_neg h2, if_pos h3] at h
        exact absurd h (by decide)
      · by_cases h4 : c = '('
        · rw [classifyEnd, if_neg h1, if_neg h2, if_neg h3, if_pos h4] at h
          exact absurd h (by decide)
        · by_cases h5 : c = ')'
          · rw [classifyEnd, if_neg h1, if_neg h2, if_neg h3, if_neg h4,
              if_pos h5] at h
            exact absurd h (by decide)
          · by_cases h6 : c = '['
            · rw [classifyEnd, if_neg h1, if_neg h2, if_neg h3, if_neg h4,
                if_neg h5, if_pos h6] at h
              exact absurd h (by decide)
            · by_cases h7 : c = ']'
              · rw [classifyEnd, if_neg h1, if_neg h2, if_neg h3, if_neg h4,
                  if_neg h5, if_neg h6, if_pos h7] at h
                exact absurd h (by decide)
              · by_cases h8 : c = '{'
                · rw [classifyEnd, if_neg h1, if_neg h2, if_neg h3, if_neg h4,
                    if_neg h5, if_neg h6, if_neg h7, if_pos h8] at h
                  exact absurd h (by decide)
                · by_cases h9 : c = '}'
                  · rw [classifyEnd, if_neg h1, if_neg h2, if_neg h3,
                      if_neg h4, if_neg h5, if_neg h6, if_neg h7, if_neg h8,
                      if_pos h9] at h
                    exact absurd h (by decide)
                  · by_cases h10 : c.toNat = 0x27
                    · exact h10
                    · rw [classifyEnd, if_neg h1, if_neg h2, if_neg h3,
                        if_neg h4, if_neg h5, if_neg h6, if_neg h7, if_neg h8,
                        if_neg h9, if_neg h10] at h
                      exact absurd h (by decide)

/-! ### The forward scan never records an end past a stop character -/

theorem findEndLoop_stop :
    ∀ (cs : List Char) (k : Nat) (r sq cu : Int) (qf pr : Bool)
      (e : Option Nat),
      (∀ w, e = some w → w ≤ k) →
      ∀ v, findEndLoop (charIndicesFrom k cs) r sq cu qf pr e = some v →
        ∀ i c, (i, c) ∈ charIndicesFrom k cs → i < v →
          isStopChar c = false := by
  intro cs
  induction cs with
  | nil =>
    intro k r sq cu qf pr e he v h i c hm
    simp [charIndicesFrom] at hm
  | cons ch cs ih =>
    intro k r sq cu qf pr e he v h i c hm hi
    rw [charIndicesFrom] at h hm
    rw [findEndLoop] at h
    have hcpos := utf8Size_pos ch
    rcases hcl : classifyEnd ch <;> simp only [hcl] at h <;>
      repeat' split at h
    all_goals first
      | (have hv := he _ h
         rcases List.mem_cons.mp hm with hhd | htl
         · injection hhd with h1 h2
           omega
         · have := (mem_charIndicesFrom_bounds _ _ _ _ htl).1
           omega)
      | (rcases List.mem_cons.mp hm with hhd | htl
         · injection hhd with h1 h2
           rw [h2]
           exact isStopChar_of_classifyEnd _ (by rw [hcl]; decide)
         · exact ih _ _ _ _ _ _ _
             (fun w hw => le_trans (he w hw) (Nat.le_add_right _ _))
             v h i c htl hi)
      | (rcases List.mem_cons.mp hm with hhd | htl
         · injection hhd with h1 h2
           rw [h2]
           exact isStopChar_of_classifyEnd _ (by rw [hcl]; decide)
         · exact ih _ _ _ _ _ _ _
             (fun w hw => Nat.le_of_eq (Option.some.inj hw).symm)
             v h i c htl hi)

/-- Two members of `char_indices` ending at the same byte offset are the
same member: offsets are strictly increasing. -/
theorem charIndicesFrom_end_inj :
    ∀ (cs : List Char) (k i j : Nat) (c d : Char),
      (i, c) ∈ charIndicesFrom k cs → (j, d) ∈ charIndicesFrom k cs →
      i + c.utf8Size = j + d.utf8Size → i = j ∧ c = d := by
  intro cs
  induction cs with
  | nil => intro k i j c d h; simp [charIndicesFrom] at h
  | cons ch cs ih =>
    intro k i j c d h1 h2 heq
    rw [charIndicesFrom] at h1 h2
    rcases List.mem_cons.mp h1 with ha | ha <;>
      rcases List.mem_cons.mp h2 with hb | hb
    · injection ha with ha1 ha2
      injection hb with hb1 hb2
      subst ha1; subst ha2; subst hb1; subst hb2
      exact ⟨rfl, rfl⟩
    · injection ha with ha1 ha2
      subst ha1; subst ha2
      have hj := (mem_charIndicesFrom_bounds _ _ _ _ hb).1
      have := utf8Size_pos d
      omega
    · injection hb with hb1 hb2
      subst hb1; subst hb2
      have hi2 := (mem_charIndicesFrom_bounds _ _ _ _ ha).1
      have := utf8Size_pos c
      omega
    · exact ih _ _ _ _ _ ha hb heq

/-! ### The quote-parity invariant of the forward scan -/

theorem qLtFrom_eq_zero :
    ∀ (cs : List Char) (k v : Nat), v ≤ k → qLtFrom k cs v = 0 := by
  intro cs
  induction cs with
  | nil => intro k v _; rfl
  | cons c cs ih =>
    intro k v hv
    rw [qLtFrom, if_neg (by omega), ih (k + c.utf8Size) v (by omega)]

theorem not_decide_mod_two (q : Nat) :
    (!decide (q % 2 = 1)) = decide ((q + 1) % 2 = 1) := by
  rcases Nat.mod_two_eq_zero_or_one q with h | h <;>
    simp [h, Nat.add_mod]

theorem findEndLoop_quote :
    ∀ (cs : List Char) (k : Nat) (r sq cu : Int) (pr : Bool)
      (e : Option Nat) (q : Nat) (v : Nat),
      findEndLoop (charIndicesFrom k cs) r sq cu
        (decide (q % 2 = 1)) pr e = some v →
      e = some v ∨
      ∃ i c, (i, c) ∈ charIndicesFrom k cs ∧ v = i + c.utf8Size ∧
        (classifyEnd c = EndClass.quote → (q + qLtFrom k cs v) % 2 = 0) := by
  intro cs
  induction cs with
  | nil => intro k r sq cu pr e q v h; exact Or.inl h
  | cons ch cs ih =>
    intro k r sq cu pr e q v h
    rw [charIndicesFrom] at h ⊢
    rw [findEndLoop] at h
    have hcpos := utf8Size_pos ch
    cases hcl : classifyEnd ch with
    | stop =>
      simp only [hcl] at h
      exact Or.inl h
    | punct =>
      simp only [hcl] at h
      rcases ih _ _ _ _ _ _ _ _ h with he | ⟨i, c, hm, hv, hq⟩
      · exact Or.inl he
      · refine Or.inr ⟨i, c, List.mem_cons_of_mem _ hm, hv, fun hcq => ?_⟩
        rw [qLtFrom,
          if_neg (fun hx => toNat_ne_quote ch (by rw [hcl]; decide) hx.2)]
        simpa using hq hcq
    | slash =>
      simp only [hcl] at h
      split at h
      · rcases ih _ _ _ _ _ _ _ _ h with he | ⟨i, c, hm, hv, hq⟩
        · refine Or.inr ⟨k, ch, List.mem_cons_self _ _,
            (Option.some.inj he).symm, fun hcq => ?_⟩
          exact absurd hcl (by rw [hcq]; decide)
        · refine Or.inr ⟨i, c, List.mem_cons_of_mem _ hm, hv, fun hcq => ?_⟩
          rw [qLtFrom,
            if_neg (fun hx => toNat_ne_quote ch (by rw [hcl]; decide) hx.2)]
          simpa using hq hcq
      · rcases ih _ _ _ _ _ _ _ _ h with he | ⟨i, c, hm, hv, hq⟩
        · exact Or.inl he
        · refine Or.inr ⟨i, c, List.mem_cons_of_mem _ hm, hv, fun hcq => ?_⟩
          rw [qLtFrom,
            if_neg (fun hx => toNat_ne_quote ch (by rw [hcl]; decide) hx.2)]
          simpa using hq hcq
    | roundOpen =>
      simp only [hcl] at h
      rcases ih _ _ _ _ _ _ _ _ h with he | ⟨i, c, hm, hv, hq⟩
      · exact Or.inl he
      · refine Or.inr ⟨i, c, List.mem_cons_of_mem _ hm, hv, fun hcq => ?_⟩
        rw [qLtFrom,
          if_neg (fun hx => toNat_ne_quote ch (by rw [hcl]; decide) hx.2)]
        simpa using hq hcq
    | roundClose =>
      simp only [hcl] at h
      split at h
      · exact Or.inl h
      · rcases ih _ _ _ _ _ _ _ _ h with he | ⟨i, c, hm, hv, hq⟩
        · refine Or.inr ⟨k, ch, List.mem_cons_self _ _,
            (Option.some.inj he).symm, fun hcq => ?_⟩
          exact absurd hcl (by rw [hcq]; decide)
        · refine Or.inr ⟨i, c, List.mem_cons_of_mem _ hm, hv, fun hcq => ?_⟩
          rw [qLtFrom,
            if_neg (fun hx => toNat_ne_quote ch (by rw [hcl]; decide) hx.2)]
          simpa using hq hcq
    | squareOpen =>
      simp only [hcl] at h
      rcases ih _ _ _ _ _ _ _ _ h with he | ⟨i, c, hm, hv, hq⟩
      · exact Or.inl he
      · refine Or.inr ⟨i, c, List.mem_cons_of_mem _ hm, hv, fun hcq => ?_⟩
        rw [qLtFrom,
          if_neg (fun hx => toNat_ne_quote ch (by rw [hcl]; decide) hx.2)]
        simpa using hq hcq
    | squareClose =>
      simp only [hcl] at h
      split at h
      · exact Or.inl h
      · rcases ih _ _ _ _ _ _ _ _ h with he | ⟨i, c, hm, hv, hq⟩
        · refine Or.inr ⟨k, ch, List.mem_cons_self _ _,
            (Option.some.inj he).symm, fun hcq => ?_⟩
          exact absurd hcl (by rw [hcq]; decide)
        · refine Or.inr ⟨i, c, List.mem_cons_of_mem _ hm, hv, fun hcq => ?_⟩
          rw [qLtFrom,
            if_neg (fun hx => toNat_ne_quote ch (by rw [hcl]; decide) hx.2)]
          simpa using hq hcq
    | curlyOpen =>
      simp only [hcl] at h
      rcases ih _ _ _ _ _ _ _ _ h with he | ⟨i, c, hm, hv, hq⟩
      · exact Or.inl he
      · refine Or.inr ⟨i, c, List.mem_cons_of_mem _ hm, hv, fun hcq => ?_⟩
        rw [qLtFrom,
          if_neg (fun hx => toNat_ne_quote ch (by rw [hcl]; decide) hx.2)]
        simpa using hq hcq
    | curlyClose =>
      simp only [hcl] at h
      split at h
      · exact Or.inl h
      · rcases ih _ _ _ _ _ _ _ _ h with he | ⟨i, c, hm, hv, hq⟩
        · refine Or.inr ⟨k, ch, List.mem_cons_self _ _,
            (Option.some.inj he).symm, fun hcq => ?_⟩
          exact absurd hcl (by rw [hcq]; decide)
        · refine Or.inr ⟨i, c, List.mem_cons_of_mem _ hm, hv, fun hcq => ?_⟩
          rw [qLtFrom,
            if_neg (fun hx => toNat_ne_quote ch (by rw [hcl]; decide) hx.2)]
          simpa using hq hcq
    | quote =>
      simp only [hcl] at h
      have hch : ch.toNat = 0x27 := classifyEnd_quote_toNat ch hcl
      rw [not_decide_mod_two] at h
      split at h
      · rename_i hqtrue
        have hqodd : q % 2 = 1 := by
          by_contra hq0
          simp [hq0] at hqtrue
        rcases ih _ _ _ _ _ _ _ _ h with he | ⟨i, c, hm, hv, hq⟩
        · have hv2 : v = k + ch.utf8Size := (Option.some.inj he).symm
          refine Or.inr ⟨k, ch, List.mem_cons_self _ _, hv2, fun _ => ?_⟩
          rw [qLtFrom, if_pos ⟨by omega, hch⟩,
            qLtFrom_eq_zero cs (k + ch.utf8Size) v (by omega)]
          omega
        · refine Or.inr ⟨i, c, List.mem_cons_of_mem _ hm, hv, fun hcq => ?_⟩
          have hik := (mem_charIndicesFrom_bounds _ _ _ _ hm).1
          have hcp := utf8Size_pos c
          rw [qLtFrom, if_pos ⟨by omega, hch⟩]
          have hqv := hq hcq
          omega
      · rename_i hqfalse
        have hqeven : q % 2 = 0 := by
          rcases Nat.mod_two_eq_zero_or_one q with h0 | h1
          · exact h0
          · simp [h1] at hqfalse
        rcases ih _ _ _ _ _ _ _ _ h with he | ⟨i, c, hm, hv, hq⟩
        · exact Or.inl he
        · refine Or.inr ⟨i, c, List.mem_cons_of_mem _ hm, hv, fun hcq => ?_⟩
          have hik := (mem_charIndicesFrom_bounds _ _ _ _ hm).1
          have hcp := utf8Size_pos c
          rw [qLtFrom, if_pos ⟨by omega, hch⟩]
          have hqv := hq hcq
          omega
    | other =>
      simp only [hcl] at h
      rcases ih _ _ _ _ _ _ _ _ h with he | ⟨i, c, hm, hv, hq⟩
      · refine Or.inr ⟨k, ch, List.mem_cons_self _ _,
          (Option.some.inj he).symm, fun hcq => ?_⟩
        exact absurd hcl (by rw [hcq]; decide)
      · refine Or.inr ⟨i, c, List.mem_cons_of_mem _ hm, hv, fun hcq => ?_⟩
        rw [qLtFrom,
          if_neg (fun hx => toNat_ne_quote ch (by rw [hcl]; decide) hx.2)]
        simpa using hq hcq

/-! ### Boundary lifting and the decomposition of a successful scan -/

theorem isBoundary_append_left (p ex2 : List Char) (n : Nat)
    (hb : isBoundary p n) : isBoundary (p ++ ex2) n := by
  rcases hb with ⟨a, b, hab, hlen⟩
  exact ⟨a, b ++ ex2, by rw [hab, List.append_assoc], hlen⟩

theorem isBoundary_shift (p q : List Char) (n : Nat)
    (hb : isBoundary q n) : isBoundary (p ++ q) (utf8Len p + n) := by
  rcases hb with ⟨a, b, hab, hlen⟩
  refine ⟨p ++ a, b, by rw [hab, List.append_assoc], ?_⟩
  rw [utf8Len_append]
  omega

theorem charIndicesFrom_mem_of_split :
    ∀ (p : List Char) (q : List Char) (c : Char) (k : Nat),
      (k + utf8Len p, c) ∈ charIndicesFrom k (p ++ c :: q) := by
  intro p
  induction p with
  | nil => intro q c k; simp [utf8Len, charIndicesFrom]
  | cons d ds ih =>
    intro q c k
    have h := List.mem_cons_of_mem (k, d) (ih q c (k + d.utf8Size))
    rw [← charIndicesFrom] at h
    have harith : k + d.utf8Size + utf8Len ds = k + utf8Len (d :: ds) := by
      rw [utf8Len]; omega
    rw [harith] at h
    exact h

theorem mem_charIndicesFrom_down :
    ∀ (cs : List Char) (k i : Nat) (c : Char),
      (i, c) ∈ charIndicesFrom k cs →
      ∃ j, i = k + j ∧ (j, c) ∈ charIndices cs := by
  intro cs k i c hm
  rcases mem_charIndicesFrom_split cs k i c hm with ⟨p, q, hpq, hlen⟩
  refine ⟨utf8Len p, by omega, ?_⟩
  rw [charIndices, hpq]
  have := charIndicesFrom_mem_of_split p q c 0
  simpa using this

theorem splitAtByte_of_startsWith :
    ∀ (po : List Char) (off : Nat) (rest : List Char),
      (∀ c, c ∈ po → c.utf8Size = 1) →
      po.length = off →
      startsWithChars po rest = true →
      splitAtByte rest off = some (po, rest.drop off) := by
  intro po
  induction po with
  | nil =>
    intro off rest _ hlen _
    subst hlen
    simp [splitAtByte]
  | cons p ps ih =>
    intro off rest hsz hlen hsw
    rcases rest with _ | ⟨c, rest2⟩
    · simp [startsWithChars] at hsw
    · rw [startsWithChars, Bool.and_eq_true] at hsw
      obtain ⟨hpc, hsw2⟩ := hsw
      have hpc2 : p = c := by simpa using hpc
      subst hpc2
      subst hlen
      have hp1 : p.utf8Size = 1 := hsz p (List.mem_cons_self _ _)
      have hrec := ih ps.length rest2
        (fun d hd => hsz d (List.mem_cons_of_mem _ hd)) rfl hsw2
      simp only [splitAtByte, List.length_cons, hp1]
      rw [if_pos (by omega)]
      have harith : ps.length + 1 - 1 = ps.length := by omega
      rw [harith, hrec]
      simp [List.drop]

/-- One-step unfolding of `scan` with the let bindings resolved. -/
theorem scan_eq (trigger : Char) (s : List Char) (ti : Nat) :
    scan trigger s ti =
      match splitAtByte s ti with
      | none => none
      | some pr =>
        if ti + (protoFor trigger).2 < utf8Len s ∧
            startsWithChars (protoFor trigger).1 pr.2 = true then
          match splitAtByte pr.2 (protoFor trigger).2 with
          | none => none
          | some pq =>
            match find_start trigger pr.1 with
            | none => none
            | some st =>
              match find_end pq.2 with
              | none => none
              | some e => some (st, ti + (protoFor trigger).2 + e)
        else none := rfl

theorem scan_some_decomp (trigger : Char) (s : List Char) (ti st en : Nat)
    (h : scan trigger s ti = some (st, en)) :
    ∃ pre rest tailP tailQ e,
      splitAtByte s ti = some (pre, rest) ∧
      splitAtByte rest (protoFor trigger).2 = some (tailP, tailQ) ∧
      ti + (protoFor trigger).2 < utf8Len s ∧
      startsWithChars (protoFor trigger).1 rest = true ∧
      find_start trigger pre = some st ∧
      find_end tailQ = some e ∧
      en = ti + (protoFor trigger).2 + e := by
  rw [scan_eq] at h
  rcases hsp : splitAtByte s ti with _ | ⟨pre, rest⟩
  · rw [hsp] at h
    exact absurd h (by simp)
  · rw [hsp] at h
    simp only at h
    by_cases hc : ti + (protoFor trigger).2 < utf8Len s ∧
        startsWithChars (protoFor trigger).1 rest = true
    · rw [if_pos hc] at h
      rcases hsp2 : splitAtByte rest (protoFor trigger).2 with _ | ⟨tailP, tailQ⟩
      · rw [hsp2] at h
        exact absurd h (by simp)
      · rw [hsp2] at h
        simp only at h
        rcases hfs : find_start trigger pre with _ | st2
        · rw [hfs] at h
          exact absurd h (by simp)
        · rw [hfs] at h
          simp only at h
          rcases hfe : find_end tailQ with _ | e2
          · rw [hfe] at h
            exact absurd h (by simp)
          · rw [hfe] at h
            simp only at h
            injection h with h
            injection h with h1 h2
            subst h1
            refine ⟨pre, rest, tailP, tailQ, e2, ?_, ?_, hc.1, hc.2,
              ?_, ?_, h2.symm⟩
            · rfl
            · exact hsp2
            · exact hfs
            · exact hfe
    · rw [if_neg hc] at h
      exact absurd h (by simp)

theorem find_end_no_stop (s : List Char) (v i : Nat) (c : Char)
    (h : find_end s = some v) (hm : (i, c) ∈ charIndices s) (hi : i < v) :
    isStopChar c = false :=
  findEndLoop_stop s 0 0 0 0 false true none
    (fun _ hw => by simp at hw) v h i c hm hi

theorem find_end_quote_even (s : List Char) (v i : Nat) (c : Char)
    (h : find_end s = some v) (hm : (i, c) ∈ charIndices s)
    (hq : c.toNat = 0x27) (hv : v = i + 1) :
    quotesBefore s v % 2 = 0 := by
  have h0 : findEndLoop (charIndicesFrom 0 s) 0 0 0
      (decide ((0 : Nat) % 2 = 1)) true none = some v := h
  rcases findEndLoop_quote s 0 0 0 0 true none 0 v h0 with he | ⟨j, d, hm2, hv2, hq2⟩
  · exact absurd he (by simp)
  · have hcq := char_eq_quote_of_toNat c hq
    have hc1 : c.utf8Size = 1 := by rw [hcq]; decide
    have huniq := charIndicesFrom_end_inj s 0 i j c d hm hm2 (by omega)
    have hd : classifyEnd d = EndClass.quote := by
      rw [← huniq.2, hcq]
      decide
    have := hq2 hd
    simpa [quotesBefore] using this

/-! ### The claims -/

/-- C1: if `scan` returns a span `(start, end)`, then
`0 ≤ start ≤ triggerIndex < end ≤ utf8Len text`, and both `start` and
`end` are Unicode scalar-value boundaries of the text. -/
theorem scan_span_bounds (trigger : Char) (s : List Char) (ti st en : Nat)
    (h : scan trigger s ti = some (st, en)) :
    0 ≤ st ∧ st ≤ ti ∧ ti < en ∧ en ≤ utf8Len s ∧
      isBoundary s st ∧ isBoundary s en := by
  rcases scan_some_decomp trigger s ti st en h with
    ⟨pre, rest, tailP, tailQ, e, hsp, hsp2, hlt, hsw, hfs, hfe, hen⟩
  rcases splitAtByte_spec _ _ _ _ hsp with ⟨hs1, hs2⟩
  rcases splitAtByte_spec _ _ _ _ hsp2 with ⟨hr1, hr2⟩
  rcases find_end_bounds _ _ hfe with ⟨he1, he2, he3⟩
  have hst : st ≤ ti ∧ isBoundary pre st := by
    by_cases hpre : pre = []
    · subst hpre
      have h0 := find_start_nil trigger st hfs
      subst h0
      exact ⟨Nat.zero_le _, ⟨[], [], rfl, rfl⟩⟩
    · rcases find_start_mem trigger pre st hpre hfs with ⟨c, hm, _⟩
      rcases mem_charIndicesFrom_bounds _ _ _ _ hm with ⟨_, hb2⟩
      have := utf8Size_pos c
      exact ⟨by omega, (mem_charIndices_boundary _ _ _ hm).1⟩
  have hlen : utf8Len s = ti + ((protoFor trigger).2 + utf8Len tailQ) := by
    rw [hs1, utf8Len_append, hr1, utf8Len_append]
    omega
  refine ⟨Nat.zero_le _, hst.1, by omega, by omega, ?_, ?_⟩
  · rw [hs1]
    exact isBoundary_append_left pre rest st hst.2
  · have hb := isBoundary_shift (pre ++ tailP) tailQ e he3
    have hsplit : s = (pre ++ tailP) ++ tailQ := by
      rw [hs1, hr1, List.append_assoc]
    rw [hsplit, hen]
    have : utf8Len (pre ++ tailP) = ti + (protoFor trigger).2 := by
      rw [utf8Len_append]
      omega
    rw [← this]
    exact hb

/-- C1 witness: for "s://x" with the trigger at the colon (byte 1), the
span is (0, 5) and the bounds hold. -/
theorem scan_span_bounds_witness :
    0 ≤ 0 ∧ 0 ≤ 1 ∧ 1 < 5 ∧ 5 ≤ utf8Len exSX ∧
      isBoundary exSX 0 ∧ isBoundary exSX 5 :=
  scan_span_bounds ':' exSX 1 0 5 (by decide)

/-- C2: whenever the reverse scheme scan produces both a letter candidate
and a digit candidate and the digit sits on the byte immediately before
the letter, `find_start` rejects (returns none); in particular,
"1abc://x" with the colon trigger at byte 4 yields no match. -/
theorem digit_adjacent_reject :
    (∀ (trigger : Char) (s : List Char) (f d : Nat),
        findStartLoop (charIndices s).reverse none none = (some f, some d) →
        d + 1 = f →
        find_start trigger s = none) ∧
    scan ':' exOneAbc 4 = none := by
  constructor
  · intro trigger s f d hfd hd
    have hs : s ≠ [] := by
      intro h0
      subst h0
      simp [charIndices, charIndicesFrom, findStartLoop] at hfd
    rw [find_start, if_neg (fun hc => hs hc.1), hfd, schemeGate,
      if_pos ⟨by omega, by omega⟩]
  · decide

/-- C2 witness: the reverse scan of "1abc" yields letter candidate 1 and
digit candidate 0, so `find_start` rejects. -/
theorem digit_adjacent_reject_witness :
    find_start ':' ['1', 'a', 'b', 'c'] = none :=
  digit_adjacent_reject.1 ':' ['1', 'a', 'b', 'c'] 1 0 (by decide) (by decide)

/-- C3 counterexample: for ".abc://x" with the colon trigger at byte 4,
`scan` does NOT return a span starting at byte 0 (the '.'). -/
theorem scan_dot_scheme_counterexample :
    ¬ ∃ en, scan ':' exDotAbc 4 = some (0, en) := by
  rintro ⟨en, h⟩
  rw [show scan ':' exDotAbc 4 = some (1, 8) from by decide] at h
  simp at h

/-- C3 (amended): for ".abc://x" with the colon trigger at byte 4, `scan`
returns the span (1, 8): it starts at the 'a' (byte 1), not at the '.'
(the '.' is skipped by the reverse scan but never recorded as a scheme
start, which only letters are). -/
theorem scan_dot_scheme : scan ':' exDotAbc 4 = some (1, 8) := by decide

/-- C4: the three bracket counters move independently — an opening
bracket adds 1 to its own counter only, a closing bracket subtracts 1
from its own counter only and, if that counter becomes negative,
terminates the scan at once returning the best end recorded so far
(excluding the bracket); in "see http://example.com/a)" the unmatched
')' is excluded from the span, which ends at byte 24. -/
theorem bracket_counters :
    (∀ (i : Nat) (l : List (Nat × Char)) (r sq cu : Int) (qf pr : Bool)
        (e : Option Nat),
        findEndLoop ((i, '(') :: l) r sq cu qf pr e =
          findEndLoop l (r + 1) sq cu qf false e) ∧
    (∀ (i : Nat) (l : List (Nat × Char)) (r sq cu : Int) (qf pr : Bool)
        (e : Option Nat),
        findEndLoop ((i, ')') :: l) r sq cu qf pr e =
          if r - 1 < 0 then e
          else findEndLoop l (r - 1) sq cu qf true (some (i + 1))) ∧
    (∀ (i : Nat) (l : List (Nat × Char)) (r sq cu : Int) (qf pr : Bool)
        (e : Option Nat),
        findEndLoop ((i, '[') :: l) r sq cu qf pr e =
          findEndLoop l r (sq + 1) cu qf false e) ∧
    (∀ (i : Nat) (l : List (Nat × Char)) (r sq cu : Int) (qf pr : Bool)
        (e : Option Nat),
        findEndLoop ((i, ']') :: l) r sq cu qf pr e =
          if sq - 1 < 0 then e
          else findEndLoop l r (sq - 1) cu qf true (some (i + 1))) ∧
    (∀ (i : Nat) (l : List (Nat × Char)) (r sq cu : Int) (qf pr : Bool)
        (e : Option Nat),
        findEndLoop ((i, '{') :: l) r sq cu qf pr e =
          findEndLoop l r sq (cu + 1) qf false e) ∧
    (∀ (i : Nat) (l : List (Nat × Char)) (r sq cu : Int) (qf pr : Bool)
        (e : Option Nat),
        findEndLoop ((i, '}') :: l) r sq cu qf pr e =
          if cu - 1 < 0 then e
          else findEndLoop l r sq (cu - 1) qf true (some (i + 1))) ∧
    scan ':' exParen 8 = some (4, 24) :=
  ⟨fun _ _ _ _ _ _ _ _ => rfl, fun _ _ _ _ _ _ _ _ => rfl,
   fun _ _ _ _ _ _ _ _ => rfl, fun _ _ _ _ _ _ _ _ => rfl,
   fun _ _ _ _ _ _ _ _ => rfl, fun _ _ _ _ _ _ _ _ => rfl,
   by decide⟩

/-- C5: an empty prefix with the slash trigger yields start offset 0
(protocol-relative URL), so "//example.org/path" with the trigger at
byte 0 matches the whole text; with the colon trigger an empty prefix
yields no start and `scan` at trigger index 0 always returns none. -/
theorem protocol_relative :
    find_start '/' ([] : List Char) = some 0 ∧
    scan '/' exPR 0 = some (0, 18) ∧
    find_start ':' ([] : List Char) = none ∧
    (∀ s : List Char, scan ':' s 0 = none) := by
  refine ⟨by decide, by decide, by decide, ?_⟩
  intro s
  have h0 : splitAtByte s 0 = some ([], s) := by
    cases s with
    | nil => rfl
    | cons c cs => rfl
  simp only [scan_eq, h0]
  split
  · split
    · rfl
    · rw [show find_start ':' ([] : List Char) = none from by decide]
  · rfl

/-- C6: in the forward scan a single quote toggles the parity flag and
may be the recorded end exactly when the count of quotes seen so far,
including the current one, is even (the flag before the toggle is true);
consequently a returned end just past a single quote implies an even
number of single quotes at offsets below the end. -/
theorem quote_parity_end :
    (∀ (i : Nat) (c : Char) (l : List (Nat × Char)) (r sq cu : Int)
        (qf pr : Bool) (e : Option Nat), c.toNat = 0x27 →
        findEndLoop ((i, c) :: l) r sq cu qf pr e =
          findEndLoop l r sq cu (!qf) qf
            (if qf then some (i + c.utf8Size) else e)) ∧
    (∀ (s : List Char) (v i : Nat) (c : Char),
        find_end s = some v → (i, c) ∈ charIndices s → c.toNat = 0x27 →
        v = i + 1 → quotesBefore s v % 2 = 0) := by
  constructor
  · intro i c l r sq cu qf pr e hq
    have hc := char_eq_quote_of_toNat c hq
    subst hc
    rfl
  · intro s v i c h hm hq hv
    exact find_end_quote_even s v i c h hm hq hv

/-- C6 witness: a first quote toggles the flag and is not eligible; for
"a''" the returned end 3 sits just past the second quote and the quote
count below 3 is 2, which is even. -/
theorem quote_parity_end_witness :
    findEndLoop [(0, '\'')] 0 0 0 false true none =
        findEndLoop [] 0 0 0 true false none ∧
      quotesBefore exQuotes 3 % 2 = 0 := by
  constructor
  · have h := quote_parity_end.1 0 '\'' [] 0 0 0 false true none (by decide)
    simpa using h
  · exact quote_parity_end.2 exQuotes 3 2 '\'' (by decide) (by decide)
      (by decide) (by decide)

/-- C7: a '/' is eligible to end the URL exactly when the previous
character was, the continuation flag starts as true, and hence a '/' as
the very first character after the separator is eligible (and recorded)
as an end. -/
theorem slash_continuation :
    (∀ (i : Nat) (l : List (Nat × Char)) (r sq cu : Int) (qf pr : Bool)
        (e : Option Nat),
        findEndLoop ((i, '/') :: l) r sq cu qf pr e =
          findEndLoop l r sq cu qf pr (if pr then some (i + 1) else e)) ∧
    (∀ cs : List Char,
        find_end ('/' :: cs) =
          findEndLoop (charIndicesFrom 1 cs) 0 0 0 false true (some 1)) ∧
    find_end ['/'] = some 1 :=
  ⟨fun _ _ _ _ _ _ _ _ => rfl, fun _ => rfl, by decide⟩

/-- C8: a stop character (control, space, double quote, angle bracket,
backtick) terminates the forward scan at once without updating the end,
and no character between the position after the separator and the
returned end is a stop character; "http://example.com a" ends at byte
18, excluding the space and everything after it. -/
theorem url_stop_chars :
    (∀ (i : Nat) (c : Char) (l : List (Nat × Char)) (r sq cu : Int)
        (qf pr : Bool) (e : Option Nat), isStopChar c = true →
        findEndLoop ((i, c) :: l) r sq cu qf pr e = e) ∧
    (∀ (trigger : Char) (s : List Char) (ti st en i : Nat) (c : Char),
        scan trigger s ti = some (st, en) →
        (i, c) ∈ charIndices s →
        ti + (protoFor trigger).2 ≤ i → i < en →
        isStopChar c = false) ∧
    scan ':' exHttpSpace 4 = some (0, 18) := by
  refine ⟨?_, ?_, by decide⟩
  · intro i c l r sq cu qf pr e hstop
    have hcl : classifyEnd c = EndClass.stop := by
      rw [classifyEnd, if_pos hstop]
    rw [findEndLoop, hcl]
  · intro trigger s ti st en i c h hm hge hlt2
    rcases scan_some_decomp trigger s ti st en h with
      ⟨pre, rest, tailP, tailQ, e, hsp, hsp2, _, _, _, hfe, hen⟩
    rcases splitAtByte_spec _ _ _ _ hsp with ⟨hs1, hs2⟩
    rcases splitAtByte_spec _ _ _ _ hsp2 with ⟨hr1, hr2⟩
    subst hs1
    subst hr1
    rw [charIndices, charIndicesFrom_append, charIndicesFrom_append] at hm
    rcases List.mem_append.mp hm with hm1 | hm23
    · rcases mem_charIndicesFrom_bounds _ _ _ _ hm1 with ⟨_, hb⟩
      have := utf8Size_pos c
      omega
    · rcases List.mem_append.mp hm23 with hm2 | hm3
      · rcases mem_charIndicesFrom_bounds _ _ _ _ hm2 with ⟨_, hb⟩
        have := utf8Size_pos c
        omega
      · rcases mem_charIndicesFrom_down _ _ _ _ hm3 with ⟨j, hij, hmj⟩
        refine find_end_no_stop tailQ e j c hfe hmj ?_
        omega

/-- C8 witness: for "http://example.com a" the character at byte 7 lies
inside the span (7 ≤ 7 < 18) and is not a stop character. -/
theorem url_stop_chars_witness : isStopChar 'e' = false :=
  url_stop_chars.2.1 ':' exHttpSpace 4 0 18 7 'e' (by decide) (by decide)
    (by decide) (by decide)

/-- C9: `scan` is total — every failure is the absent result — and for a
trigger index on a scalar boundary it returns none exactly when the
separator guard fails (separator not literally present or nothing after
it), or the start finder fails (including the digit-adjacency
rejection), or the end finder records no end. -/
theorem scan_failure_taxonomy (trigger : Char) (s : List Char) (ti : Nat)
    (pre rest : List Char) (hsp : splitAtByte s ti = some (pre, rest)) :
    scan trigger s ti = none ↔
      (¬ (ti + (protoFor trigger).2 < utf8Len s ∧
          startsWithChars (protoFor trigger).1 rest = true) ∨
       find_start trigger pre = none ∨
       find_end (rest.drop (protoFor trigger).2) = none) := by
  have hlen : (protoFor trigger).1.length = (protoFor trigger).2 := by
    by_cases ht : trigger = '/' <;> simp [protoFor, ht]
  have hsz : ∀ c, c ∈ (protoFor trigger).1 → c.utf8Size = 1 := by
    by_cases ht : trigger = '/'
    · rw [protoFor, if_pos ht]
      decide
    · rw [protoFor, if_neg ht]
      decide
  have hsplit2 : startsWithChars (protoFor trigger).1 rest = true →
      splitAtByte rest (protoFor trigger).2 =
        some ((protoFor trigger).1, rest.drop (protoFor trigger).2) :=
    fun hsw => splitAtByte_of_startsWith _ _ _ hsz hlen hsw
  constructor
  · intro hnone
    by_cases hc : ti + (protoFor trigger).2 < utf8Len s ∧
        startsWithChars (protoFor trigger).1 rest = true
    · rw [scan_eq, hsp] at hnone
      simp only at hnone
      rw [if_pos hc, hsplit2 hc.2] at hnone
      simp only at hnone
      rcases hfs : find_start trigger pre with _ | st
      · exact Or.inr (Or.inl rfl)
      · rw [hfs] at hnone
        simp only at hnone
        rcases hfe : find_end (rest.drop (protoFor trigger).2) with _ | e
        · exact Or.inr (Or.inr rfl)
        · rw [hfe] at hnone
          simp only at hnone
          exact absurd hnone (by simp)
    · exact Or.inl hc
  · intro hd
    by_cases hc : ti + (protoFor trigger).2 < utf8Len s ∧
        startsWithChars (protoFor trigger).1 rest = true
    · rcases hd with hg | hfs | hfe
      · exact absurd hc hg
      · rw [scan_eq, hsp]
        simp only
        rw [if_pos hc, hsplit2 hc.2]
        simp only [hfs]
      · rw [scan_eq, hsp]
        simp only
        rw [if_pos hc, hsplit2 hc.2]
        rcases hfs2 : find_start trigger pre with _ | st
        · simp [hfs2]
        · simp [hfs2, hfe]
    · rw [scan_eq, hsp]
      simp only
      rw [if_neg hc]

/-- C9 witness: the taxonomy instantiated at "1abc://x" with the trigger
at byte 4 (where the digit-adjacency rejection fires). -/
theorem scan_failure_taxonomy_witness :
    scan ':' exOneAbc 4 = none ↔
      (¬ (4 + (protoFor ':').2 < utf8Len exOneAbc ∧
          startsWithChars (protoFor ':').1 [':', '/', '/', 'x'] = true) ∨
       find_start ':' ['1', 'a', 'b', 'c'] = none ∨
       find_end ([':', '/', '/', 'x'].drop (protoFor ':').2) = none) :=
  scan_failure_taxonomy ':' exOneAbc 4 ['1', 'a', 'b', 'c']
    [':', '/', '/', 'x'] (by decide)

/-- C10: when the text before the trigger is non-empty (the reverse
scheme scan ran), the character at the returned start offset is an ASCII
letter — never a digit and never '+', '-' or '.'. -/
theorem scheme_start_letter (trigger : Char) (s : List Char)
    (ti st en : Nat) (h : scan trigger s ti = some (st, en)) (hti : ti ≠ 0) :
    ∃ c, (st, c) ∈ charIndices s ∧ isAsciiAlpha c = true ∧
      isAsciiDigit c = false ∧ c ≠ '+' ∧ c ≠ '-' ∧ c ≠ '.' := by
  rcases scan_some_decomp trigger s ti st en h with
    ⟨pre, rest, tailP, tailQ, e, hsp, _, _, _, hfs, _, _⟩
  rcases splitAtByte_spec _ _ _ _ hsp with ⟨hs1, hs2⟩
  have hpre : pre ≠ [] := by
    intro h0
    subst h0
    simp [utf8Len] at hs2
    exact hti hs2.symm
  rcases find_start_mem trigger pre st hpre hfs with ⟨c, hm, ha⟩
  have hmem : (st, c) ∈ charIndices s := by
    rw [hs1, charIndices, charIndicesFrom_append]
    exact List.mem_append_left _ hm
  have ha2 : (0x41 ≤ c.toNat ∧ c.toNat ≤ 0x5A) ∨
      (0x61 ≤ c.toNat ∧ c.toNat ≤ 0x7A) := by
    simpa [isAsciiAlpha] using ha
  refine ⟨c, hmem, ha, ?_, ?_, ?_, ?_⟩
  · simp [isAsciiDigit]
    omega
  · rintro rfl
    exact absurd ha (by decide)
  · rintro rfl
    exact absurd ha (by decide)
  · rintro rfl
    exact absurd ha (by decide)

/-- C10 witness: for "s://x" with the trigger at byte 1, the start is
byte 0 and the character there, 's', is an ASCII letter. -/
theorem scheme_start_letter_witness :
    ∃ c, (0, c) ∈ charIndices exSX ∧ isAsciiAlpha c = true ∧
      isAsciiDigit c = false ∧ c ≠ '+' ∧ c ≠ '-' ∧ c ≠ '.' :=
  scheme_start_letter ':' exSX 1 0 5 (by decide) (by decide)

end Linkify
